import Mathlib

/-!
# Verification of the batched GWAS linear-regression core (sgkit/stats/association.py)

This file gives a shallow embedding of the batched ordinary-least-squares
association-testing code and proves properties of it.

Modelling conventions:

* Numeric arrays are modelled over exact rationals (`ℚ`).  The code's
  floating-point arithmetic is modelled exactly; the one place where IEEE
  special values (infinities / NaN) are behaviourally relevant (a degenerate
  loop covariate, producing a division by zero) is modelled separately with an
  extended value type `FVal` that carries IEEE-style `nan` / signed-infinity
  propagation.
* `da.linalg.lstsq` is an external dask library routine (not part of this
  repository).  It is modelled as a parameter of type `Solver`; a solver's
  output being a least-squares solution is characterized by the normal
  equations (`IsLstsqAt`), which is proved equivalent to minimizing the
  Frobenius residual (`isLstsqAt_iff_frobeniusSq_le`).  A concrete computable
  solver `neSolver` (adjugate-based solve of the normal equations) is supplied
  for evaluating the pipeline on concrete inputs.
* `np.sqrt` and `scipy`'s Student-t survival function are likewise external;
  the t-statistic uses `Real.sqrt` and the survival function is a parameter
  `tsf`.
* N-dimensional dask arrays are modelled by `NDArr`: an explicit shape list
  together with an entry function indexed by a list of coordinates.
-/

/-- A 2-D rational matrix with `m` rows and `n` columns. -/
abbrev Mat (m n : ℕ) := Matrix (Fin m) (Fin n) ℚ

/-! ## Batched statistic estimator (association.py lines 79-96)

The definitions below transcribe, operation by operation:
```
XLPS = (XLP ** 2).sum(axis=0, keepdims=True).T
B = (XLP.T @ YP) / XLPS
YR = YP[:, np.newaxis, :] - XLP[..., np.newaxis] * B[np.newaxis, ...]
RSS = (YR ** 2).sum(axis=0)
T = B / np.sqrt(RSS / dof / XLPS)
P = 2 * stats.distributions.t.sf(np.abs(T), dof)
```
-/

/-- Elementwise square of a matrix (`A ** 2`). -/
def sqEnt (A : Mat m n) : Mat m n := fun i j => A i j ^ 2

/-- Sum over axis 0 with `keepdims=True`: a `(1, n)` matrix of column sums. -/
def sumAxis0K (A : Mat m n) : Mat 1 n := fun _ j => ∑ i, A i j

/-- Transcribes `XLPS = (XLP ** 2).sum(axis=0, keepdims=True).T` — shape `(N, 1)`. -/
def XLPSmat (XLP : Mat M N) : Mat N 1 := (sumAxis0K (sqEnt XLP)).transpose

/-- Transcribes `B = (XLP.T @ YP) / XLPS` — matrix product followed by elementwise
division, the `(N, 1)` divisor broadcast across the `O` outcome columns. -/
def Bmat (XLP : Mat M N) (YP : Mat M O) : Mat N O :=
  fun n o => (XLP.transpose * YP) n o / XLPSmat XLP n 0

/-- Transcribes `YR[m, n, o] = YP[m, o] - XLP[m, n] * B[n, o]` — the 3-D broadcast of
per-(loop covariate, outcome) residuals. -/
def YRent (XLP : Mat M N) (YP : Mat M O) : Fin M → Fin N → Fin O → ℚ :=
  fun m n o => YP m o - XLP m n * Bmat XLP YP n o

/-- Transcribes `RSS = (YR ** 2).sum(axis=0)` — shape `(N, O)`. -/
def RSSmat (XLP : Mat M N) (YP : Mat M O) : Mat N O :=
  fun n o => ∑ m, YRent XLP YP m n o ^ 2

/-- The quantity under the square root in the t-statistic:
`RSS / dof / XLPS` (elementwise, `(N, 1)` broadcast across outcomes). -/
def tDenomSq (XLP : Mat M N) (YP : Mat M O) (dof : ℤ) : Mat N O :=
  fun n o => RSSmat XLP YP n o / (dof : ℚ) / XLPSmat XLP n 0

/-- Transcribes `T = B / np.sqrt(RSS / dof / XLPS)` — exact-value model of the
t-statistic (real-valued because of the square root). -/
noncomputable def Tmat (XLP : Mat M N) (YP : Mat M O) (dof : ℤ) :
    Fin N → Fin O → ℝ :=
  fun n o => (Bmat XLP YP n o : ℝ) / Real.sqrt ((tDenomSq XLP YP dof n o : ℚ) : ℝ)

/-- Transcribes `P = 2 * t.sf(np.abs(T), dof)`, with the Student-t survival function
`tsf` supplied as a parameter (it lives in scipy, outside this repository). -/
noncomputable def Pmat (tsf : ℝ → ℤ → ℝ) (XLP : Mat M N) (YP : Mat M O)
    (dof : ℤ) : Fin N → Fin O → ℝ :=
  fun n o => 2 * tsf |Tmat XLP YP dof n o| dof

/-! ## The least-squares projection (association.py lines 64-72) -/

/-- Transcribes `M - XC @ lstsq(XC, M)[0]`: the residual of `A` after removing the
least-squares fit on `XC`, where `Bc` is the solver's output. -/
def project (XC : Mat M P) (A : Mat M K) (Bc : Mat P K) : Mat M K :=
  A - XC * Bc

/-- Characterization of `Bc` being a least-squares solution of
`XC @ Bc ≈ A`: the normal equations.  (Proved below to be equivalent to
minimizing the Frobenius norm of the residual, which is the defining
property of `da.linalg.lstsq`'s output as described by the spec.) -/
def IsLstsqAt (XC : Mat M P) (A : Mat M K) (Bc : Mat P K) : Prop :=
  XC.transpose * XC * Bc = XC.transpose * A

/-- Sum of squares of all entries — the squared Frobenius norm. -/
def frobSq (A : Mat m n) : ℚ := ∑ i, ∑ j, A i j ^ 2

/-- The type of least-squares solvers.  `da.linalg.lstsq` is external dask
code; the pipeline takes the solver as a parameter of this type. -/
def Solver : Type := ∀ (M P K : ℕ), Mat M P → Mat M K → Mat P K

/-- Computable inverse of a square rational matrix via the adjugate
(meaningful when the determinant is nonzero). -/
def qInv (A : Mat p p) : Mat p p := (A.det)⁻¹ • A.adjugate

/-- A concrete computable solver: solve the normal equations with the
adjugate-based inverse.  Used to instantiate the pipeline on concrete
inputs; it returns the least-squares solution whenever `XCᵀXC` is
nonsingular. -/
def neSolver : Solver := fun _ _ _ XC A => qInv (XC.transpose * XC) * (XC.transpose * A)

/-! ## linear_regression (association.py lines 20-98) -/

/-- Result of `linear_regression`.  The exact statistics (`beta`, the
per-column sums of squares `xlps`, the residual sums of squares `rss`, and
`dof`) are stored as rationals; the t-statistic and p-value are the real /
survival-function images of these and are exposed as the derived accessors
`LinearRegressionResult.t_value` / `LinearRegressionResult.p_value`. -/
structure LinearRegressionResult where
  nLoop : ℕ
  nOutcome : ℕ
  dof : ℤ
  beta : Matrix (Fin nLoop) (Fin nOutcome) ℚ
  xlps : Fin nLoop → ℚ
  rss : Matrix (Fin nLoop) (Fin nOutcome) ℚ

/-- Accessor `t_value : (N, O)` — `beta / sqrt(rss / dof / xlps)`. -/
noncomputable def LinearRegressionResult.t_value (r : LinearRegressionResult) :
    Fin r.nLoop → Fin r.nOutcome → ℝ :=
  fun n o => (r.beta n o : ℝ) / Real.sqrt ((r.rss n o / (r.dof : ℚ) / r.xlps n : ℚ) : ℝ)

/-- Accessor `p_value : (N, O)` — `2 * tsf(|t|, dof)`. -/
noncomputable def LinearRegressionResult.p_value (tsf : ℝ → ℤ → ℝ)
    (r : LinearRegressionResult) : Fin r.nLoop → Fin r.nOutcome → ℝ :=
  fun n o => 2 * tsf |r.t_value n o| r.dof

/-- The typed numeric core of `linear_regression` (everything after the
validation): project out the core covariates from both `XL` and `Y` using
the least-squares solver, then run the batched estimator. -/
def linRegCore (solver : Solver) (M N P O : ℕ)
    (XLm : Mat M N) (XCm : Mat M P) (Ym : Mat M O) (dof : ℤ) :
    LinearRegressionResult :=
  let XLP := project XCm XLm (solver M P N XCm XLm)
  let YP := project XCm Ym (solver M P O XCm Ym)
  { nLoop := N
    nOutcome := O
    dof := dof
    beta := Bmat XLP YP
    xlps := fun n => XLPSmat XLP n 0
    rss := RSSmat XLP YP }

/-- An n-dimensional dask/numpy array: a shape together with an entry
function indexed by a coordinate list. -/
structure NDArr where
  shape : List ℕ
  entry : List ℕ → ℚ

instance : Inhabited NDArr := ⟨⟨[], fun _ => 0⟩⟩

/-- Number of dimensions. -/
def NDArr.ndim (A : NDArr) : ℕ := A.shape.length

/-- View a (2-D) `NDArr` as a typed matrix of the given dimensions. -/
def NDArr.mat (A : NDArr) (m n : ℕ) : Mat m n := fun i j => A.entry [i.1, j.1]

/-- Transpose `.T`: reverse the axes (for a 2-D array, swap rows and columns). -/
def NDArr.T (A : NDArr) : NDArr :=
  { shape := A.shape.reverse
    entry := fun idx =>
      match idx with
      | [i, j] => A.entry [j, i]
      | _ => 0 }

/-- The degrees-of-freedom error message (association.py lines 58-62),
reporting the observation count and the core-covariate count. -/
def dofMsg (n_obs n_core_covar : ℕ) : String :=
  "Number of observations (N) too small to calculate sampling statistics. " ++
  "N must be greater than number of core covariates (C) plus one. " ++
  "Arguments provided: N=" ++ toString n_obs ++ ", C=" ++ toString n_core_covar ++ "."

/-- Model of `linear_regression(XL, XC, Y)` (association.py lines 20-98): validate
that all three arrays are 2-dimensional, compute `dof = n_obs - n_core - 1`
from the shapes and validate `dof ≥ 1`, then run the projection and the
batched estimator.  `da.linalg.lstsq` is supplied as the `solver`
parameter. -/
def linear_regression (solver : Solver) (XL XC Y : NDArr) :
    Except String LinearRegressionResult :=
  if XL.ndim = 2 ∧ XC.ndim = 2 ∧ Y.ndim = 2 then
    let n_core_covar := XC.shape.getD 1 0
    let n_loop_covar := XL.shape.getD 1 0
    let n_obs := Y.shape.getD 0 0
    let n_outcome := Y.shape.getD 1 0
    let dof : ℤ := (n_obs : ℤ) - n_core_covar - 1
    if dof < 1 then
      Except.error (dofMsg n_obs n_core_covar)
    else
      Except.ok (linRegCore solver n_obs n_loop_covar n_core_covar n_outcome
        (XL.mat n_obs n_loop_covar) (XC.mat n_obs n_core_covar)
        (Y.mat n_obs n_outcome) dof)
  else
    Except.error "All arguments must be two dimensional"

/-! ## Dataset adapter layer (association.py lines 101-197) -/

/-- A labeled dataset: a mapping from variable names to arrays (the xarray
`Dataset` abstraction, reduced to what the code reads from it). -/
def Dataset : Type := String → NDArr

/-- An all-ones 1-D array of the given length (`da.ones`). -/
def onesArr (M : ℕ) : NDArr := ⟨[M], fun _ => 1⟩

/-- Model of `da.stack(cols).T`: stack `k` 1-D arrays of length `m` into a `(k, m)`
array, then transpose to `(m, k)`.  The row count is read off the first
stacked array, as dask does when broadcasting the common shape. -/
def stackT (cols : List NDArr) : NDArr :=
  { shape := [(cols.headD default).shape.getD 0 0, cols.length]
    entry := fun idx =>
      match idx with
      | [i, j] => (cols.getD j default).entry [i]
      | _ => 0 }

/-- Model of `da.concatenate([da.ones((X.shape[0], 1)), X], axis=1)`: put an all-ones
column in front of `X`. -/
def addInterceptCol (X : NDArr) : NDArr :=
  { shape := [X.shape.getD 0 0, X.shape.getD 1 0 + 1]
    entry := fun idx =>
      match idx with
      | [i, j] => if j = 0 then 1 else X.entry [i, j - 1]
      | _ => 0 }

/-- The stacked-and-transposed covariate matrix built from named columns. -/
def coreStack (ds : Dataset) (covariates : List String) : NDArr :=
  stackT (covariates.map fun c => ds c)

/-- Model of `_get_core_covariates(ds, covariates, add_intercept)` (association.py
lines 111-125): reject an empty covariate list when no intercept is
requested, stack the named covariate columns, and optionally put an
intercept column of ones in front.  `da.stack` applied to an empty list
raises (numpy/dask semantics: stacking needs at least one array), which is
modelled by the second error branch; the final `rechunk` is a chunking
no-op with no numeric effect. -/
def _get_core_covariates (ds : Dataset) (covariates : List String)
    (add_intercept : Bool) : Except String NDArr :=
  if ¬add_intercept ∧ covariates.isEmpty then
    Except.error "At least one covariate must be provided when `add_intercept`=False"
  else if covariates.isEmpty then
    Except.error "need at least one array to stack"
  else
    let X := coreStack ds covariates
    Except.ok (if add_intercept then addInterceptCol X else X)

/-- Model of `_get_loop_covariates(ds, dosage)` (association.py lines 101-108) with a
dosage name supplied: read the dosage array. -/
def _get_loop_covariates (ds : Dataset) (dosage : String) : NDArr := ds dosage

/-- Model of `gwas_linear_regression` (association.py lines 128-197): select the
dosage matrix as loop covariates, assemble the core covariates, and call
`linear_regression(G.T, Z, y)`.  The re-wrapping of the three result
matrices into a labeled dataset is name bookkeeping with no numeric
content, so the result record itself is returned. -/
def gwas_linear_regression (solver : Solver) (ds : Dataset)
    (covariates : List String) (dosage trait : String)
    (add_intercept : Bool) : Except String LinearRegressionResult :=
  let G := _get_loop_covariates ds dosage
  match _get_core_covariates ds covariates add_intercept with
  | Except.error e => Except.error e
  | Except.ok Z => linear_regression solver (NDArr.T G) Z (ds trait)

/-! ## IEEE-style extended values

The code runs on IEEE floating point, where the degenerate-loop-covariate
case (`XLPS[n] == 0`) produces `0 / 0 = NaN` rather than an error.  `FVal`
models float values as exact rationals extended with signed infinities and
NaN, with the IEEE propagation rules for the arithmetic the estimator
performs. -/
inductive FVal where
  | fin (q : ℚ)
  | posInf
  | negInf
  | nan
deriving DecidableEq

/-- Is the value finite? -/
def FVal.isFinite : FVal → Bool
  | .fin _ => true
  | _ => false

/-- IEEE addition. -/
def FVal.add : FVal → FVal → FVal
  | .nan, _ => .nan
  | _, .nan => .nan
  | .fin a, .fin b => .fin (a + b)
  | .fin _, .posInf => .posInf
  | .fin _, .negInf => .negInf
  | .posInf, .fin _ => .posInf
  | .negInf, .fin _ => .negInf
  | .posInf, .posInf => .posInf
  | .negInf, .negInf => .negInf
  | .posInf, .negInf => .nan
  | .negInf, .posInf => .nan

/-- IEEE negation. -/
def FVal.neg : FVal → FVal
  | .fin a => .fin (-a)
  | .posInf => .negInf
  | .negInf => .posInf
  | .nan => .nan

/-- IEEE subtraction. -/
def FVal.sub (a b : FVal) : FVal := a.add b.neg

/-- IEEE multiplication (`0 * ±∞ = NaN`). -/
def FVal.mul : FVal → FVal → FVal
  | .nan, _ => .nan
  | _, .nan => .nan
  | .fin a, .fin b => .fin (a * b)
  | .fin a, .posInf => if a = 0 then .nan else if 0 < a then .posInf else .negInf
  | .fin a, .negInf => if a = 0 then .nan else if 0 < a then .negInf else .posInf
  | .posInf, .fin b => if b = 0 then .nan else if 0 < b then .posInf else .negInf
  | .negInf, .fin b => if b = 0 then .nan else if 0 < b then .negInf else .posInf
  | .posInf, .posInf => .posInf
  | .negInf, .negInf => .posInf
  | .posInf, .negInf => .negInf
  | .negInf, .posInf => .negInf

/-- IEEE division (`0 / 0 = NaN`, `q / 0 = ±∞`, `±∞ / ±∞ = NaN`). -/
def FVal.div : FVal → FVal → FVal
  | .nan, _ => .nan
  | _, .nan => .nan
  | .fin a, .fin b =>
      if b = 0 then
        if a = 0 then .nan else if 0 < a then .posInf else .negInf
      else .fin (a / b)
  | .fin _, .posInf => .fin 0
  | .fin _, .negInf => .fin 0
  | .posInf, .fin b => if 0 ≤ b then .posInf else .negInf
  | .negInf, .fin b => if 0 ≤ b then .negInf else .posInf
  | .posInf, .posInf => .nan
  | .posInf, .negInf => .nan
  | .negInf, .posInf => .nan
  | .negInf, .negInf => .nan

/-- IEEE absolute value. -/
def FVal.abs : FVal → FVal
  | .fin a => .fin |a|
  | .posInf => .posInf
  | .negInf => .posInf
  | .nan => .nan

/-- Left-to-right accumulation of a finite family (a float array sum). -/
def fsum (M : ℕ) (f : Fin M → FVal) : FVal :=
  (List.ofFn f).foldr FVal.add (.fin 0)

/-- Embed a rational matrix as an array of (finite) float values. -/
def embedF (A : Mat m n) : Fin m → Fin n → FVal := fun i j => .fin (A i j)

/-! The estimator of association.py lines 79-96 once more, over `FVal`
(the IEEE model of the same operations). -/

/-- Float `XLPS[n]`: the sum of squares of column `n`. -/
def XLPS_F (XLP : Fin M → Fin N → FVal) : Fin N → FVal :=
  fun n => fsum M fun m => (XLP m n).mul (XLP m n)

/-- Float `B = (XLP.T @ YP) / XLPS`. -/
def B_F (XLP : Fin M → Fin N → FVal) (YP : Fin M → Fin O → FVal) :
    Fin N → Fin O → FVal :=
  fun n o => (fsum M fun m => (XLP m n).mul (YP m o)).div (XLPS_F XLP n)

/-- Float `YR[m,n,o] = YP[m,o] - XLP[m,n] * B[n,o]`. -/
def YR_F (XLP : Fin M → Fin N → FVal) (YP : Fin M → Fin O → FVal) :
    Fin M → Fin N → Fin O → FVal :=
  fun m n o => (YP m o).sub ((XLP m n).mul (B_F XLP YP n o))

/-- Float `RSS[n,o]`. -/
def RSS_F (XLP : Fin M → Fin N → FVal) (YP : Fin M → Fin O → FVal) :
    Fin N → Fin O → FVal :=
  fun n o => fsum M fun m => (YR_F XLP YP m n o).mul (YR_F XLP YP m n o)

/-- Float `T = B / np.sqrt(RSS / dof / XLPS)`, with `np.sqrt`
supplied as a parameter `sqrtF` (NaN-preserving per IEEE). -/
def T_F (sqrtF : FVal → FVal) (XLP : Fin M → Fin N → FVal)
    (YP : Fin M → Fin O → FVal) (dof : ℤ) : Fin N → Fin O → FVal :=
  fun n o =>
    (B_F XLP YP n o).div (sqrtF (((RSS_F XLP YP n o).div (.fin (dof : ℚ))).div (XLPS_F XLP n)))

/-- Float `P = 2 * t.sf(np.abs(T), dof)`, with the Student-t survival
function supplied as a parameter `tsfF`. -/
def P_F (sqrtF : FVal → FVal) (tsfF : FVal → ℤ → FVal)
    (XLP : Fin M → Fin N → FVal) (YP : Fin M → Fin O → FVal) (dof : ℤ) :
    Fin N → Fin O → FVal :=
  fun n o => (FVal.fin 2).mul (tsfF (T_F sqrtF XLP YP dof n o).abs dof)

/-- Entrywise inner product of two equally-shaped matrices. -/
def qinner (U V : Mat m n) : ℚ := ∑ i, ∑ j, U i j * V i j

/-- Column-wise concatenation of two matrices with equal row counts
(`da.concatenate(..., axis=1)` / placing two loop-covariate blocks side by
side). -/
def hconcat (A : Mat M N1) (B : Mat M N2) : Mat M (N1 + N2) :=
  fun i j => Fin.addCases (fun j1 => A i j1) (fun j2 => B i j2) j

/-- The typed loop-covariate matrix `gwas_linear_regression` hands to
`linear_regression` (the transposed dosage array). -/
def gwasXL (ds : Dataset) (dn : String) (M V : ℕ) : Mat M V :=
  (NDArr.T (ds dn)).mat M V

/-- The typed outcome matrix `gwas_linear_regression` hands to
`linear_regression`. -/
def gwasY (ds : Dataset) (tn : String) (M O : ℕ) : Mat M O :=
  (ds tn).mat M O

/-- The typed core-covariate matrix built with `add_intercept = true`. -/
def gwasXCI (ds : Dataset) (covs : List String) (M : ℕ) :
    Mat M (covs.length + 1) :=
  (addInterceptCol (coreStack ds covs)).mat M (covs.length + 1)

/-- The typed core-covariate matrix built with `add_intercept = false` from
the covariate list extended by an explicit ones column named `oname`. -/
def gwasXCN (ds : Dataset) (covs : List String) (oname : String) (M : ℕ) :
    Mat M (covs.length + 1) :=
  (coreStack ds (covs ++ [oname])).mat M (covs.length + 1)

/-- A tiny concrete dataset fixture: dosage "d" of shape (1, 4), trait "t"
of shape (4, 1), every other variable a 1-D array of four ones. -/
def dsW : Dataset := fun name =>
  if name = "d" then ⟨[1, 4], fun _ => 1⟩
  else if name = "t" then ⟨[4, 1], fun _ => 1⟩
  else ⟨[4], fun _ => 1⟩

/-- The fixture dataset extended with an explicit all-ones column "o1". -/
def ds2W : Dataset := fun name => if name = "o1" then onesArr 4 else dsW name

/-- A constant solver matching the all-ones fixture: every fitted
coefficient is 1/2. -/
def solverW : Solver := fun _ _ _ _ _ => fun _ _ => 1 / 2

/-! ## Supporting lemmas -/

theorem FVal.add_nan (a : FVal) : a.add .nan = .nan := by
  cases a <;> rfl

theorem FVal.nan_add (a : FVal) : FVal.nan.add a = .nan := by
  cases a <;> rfl

theorem FVal.mul_nan (a : FVal) : a.mul .nan = .nan := by
  cases a <;> rfl

theorem FVal.sub_nan (a : FVal) : a.sub .nan = .nan := by
  cases a <;> rfl

/-- A float accumulation containing a NaN is NaN. -/
theorem foldr_add_of_nan_mem (l : List FVal) (h : FVal.nan ∈ l) :
    l.foldr FVal.add (.fin 0) = .nan := by
  induction l with
  | nil => cases h
  | cons a l ih =>
      rcases List.mem_cons.mp h with ha | hl
      · simp [List.foldr_cons, ← ha, FVal.nan_add]
      · simp [List.foldr_cons, ih hl, FVal.add_nan]

/-- An `fsum` with a NaN term is NaN. -/
theorem fsum_eq_nan {M : ℕ} (f : Fin M → FVal) (k : Fin M)
    (hk : f k = .nan) : fsum M f = .nan := by
  apply foldr_add_of_nan_mem
  exact (List.mem_ofFn _ _).mpr ⟨k, hk⟩

/-- A float accumulation of finite values is the finite exact sum. -/
theorem fsum_fin {M : ℕ} (g : Fin M → ℚ) :
    fsum M (fun m => .fin (g m)) = .fin (∑ m, g m) := by
  unfold fsum
  have hl : ∀ l : List ℚ, (l.map FVal.fin).foldr FVal.add (.fin 0) = .fin l.sum := by
    intro l
    induction l with
    | nil => rfl
    | cons a l ih => rw [List.map_cons, List.foldr_cons, ih, List.sum_cons]; rfl
  calc (List.ofFn fun m => FVal.fin (g m)).foldr FVal.add (.fin 0)
      = ((List.ofFn g).map FVal.fin).foldr FVal.add (.fin 0) := by
        rw [List.map_ofFn]; rfl
    _ = .fin (List.ofFn g).sum := hl _
    _ = .fin (∑ m, g m) := by rw [List.sum_ofFn]

/-- Over the rationals, a zero sum of squares forces every term to vanish. -/
theorem eq_zero_of_sum_sq_eq_zero {M : ℕ} (x : Fin M → ℚ)
    (h : (∑ m, x m ^ 2) = 0) : ∀ m, x m = 0 := by
  intro m
  have h0 : ∀ i ∈ Finset.univ, (0 : ℚ) ≤ x i ^ 2 := fun i _ => sq_nonneg (x i)
  have := (Finset.sum_eq_zero_iff_of_nonneg h0).mp h m (Finset.mem_univ m)
  exact pow_eq_zero_iff (two_ne_zero)|>.mp this

/-- Entry formula of `XLPS`: the per-column sum of squares. -/
theorem XLPSmat_apply (XLP : Mat M N) (n : Fin N) :
    XLPSmat XLP n 0 = ∑ m, XLP m n ^ 2 := rfl

/-- Entry formula of `Bmat`: the dot product over observations divided by the
column sum of squares. -/
theorem Bmat_apply (XLP : Mat M N) (YP : Mat M O) (n : Fin N) (o : Fin O) :
    Bmat XLP YP n o = (∑ m, XLP m n * YP m o) / ∑ m, XLP m n ^ 2 := by
  unfold Bmat
  rw [Matrix.mul_apply, XLPSmat_apply]
  simp [Matrix.transpose_apply]

/-- Entry formula of `RSSmat`. -/
theorem RSSmat_apply (XLP : Mat M N) (YP : Mat M O) (n : Fin N) (o : Fin O) :
    RSSmat XLP YP n o = ∑ m, (YP m o - XLP m n * Bmat XLP YP n o) ^ 2 := rfl

theorem frobSq_nonneg (A : Mat m n) : 0 ≤ frobSq A := by
  unfold frobSq
  refine Finset.sum_nonneg fun i _ => Finset.sum_nonneg fun j _ => sq_nonneg _

theorem qinner_eq_trace (U V : Mat m n) :
    qinner U V = Matrix.trace (U.transpose * V) := by
  unfold qinner Matrix.trace
  rw [Finset.sum_comm]
  refine Finset.sum_congr rfl fun j _ => ?_
  simp [Matrix.diag, Matrix.mul_apply, Matrix.transpose_apply]

/-- Adjoint shift for the entrywise inner product. -/
theorem qinner_shift (E : Mat M K) (XC : Mat M P) (D : Mat P K) :
    qinner E (XC * D) = qinner (XC.transpose * E) D := by
  rw [qinner_eq_trace, qinner_eq_trace, Matrix.transpose_mul,
    Matrix.transpose_transpose, ← Matrix.mul_assoc]

theorem frobSq_add (U V : Mat m n) :
    frobSq (U + V) = frobSq U + 2 * qinner U V + frobSq V := by
  unfold frobSq qinner
  have h : ∀ i, (∑ j, ((U + V) i j) ^ 2)
      = (∑ j, U i j ^ 2) + (2 * ∑ j, U i j * V i j) + ∑ j, V i j ^ 2 := by
    intro i
    rw [Finset.mul_sum, ← Finset.sum_add_distrib, ← Finset.sum_add_distrib]
    refine Finset.sum_congr rfl fun j _ => ?_
    simp [Matrix.add_apply]
    ring
  calc (∑ i, ∑ j, ((U + V) i j) ^ 2)
      = ∑ i, ((∑ j, U i j ^ 2) + (2 * ∑ j, U i j * V i j) + ∑ j, V i j ^ 2) :=
        Finset.sum_congr rfl fun i _ => h i
    _ = _ := by
        rw [Finset.sum_add_distrib, Finset.sum_add_distrib, Finset.mul_sum]

theorem frobSq_smul (t : ℚ) (V : Mat m n) : frobSq (t • V) = t ^ 2 * frobSq V := by
  unfold frobSq
  rw [Finset.mul_sum]
  refine Finset.sum_congr rfl fun i _ => ?_
  rw [Finset.mul_sum]
  refine Finset.sum_congr rfl fun j _ => ?_
  simp [Matrix.smul_apply, smul_eq_mul]
  ring

theorem qinner_smul_right (t : ℚ) (U V : Mat m n) :
    qinner U (t • V) = t * qinner U V := by
  unfold qinner
  rw [Finset.mul_sum]
  refine Finset.sum_congr rfl fun i _ => ?_
  rw [Finset.mul_sum]
  refine Finset.sum_congr rfl fun j _ => ?_
  simp [Matrix.smul_apply, smul_eq_mul]
  ring

/-- The normal equations make the residual orthogonal to the columns of
`XC`. -/
theorem transpose_mul_project (XC : Mat M P) (A : Mat M K) (Bc : Mat P K)
    (h : IsLstsqAt XC A Bc) : XC.transpose * project XC A Bc = 0 := by
  unfold project
  rw [Matrix.mul_sub, ← Matrix.mul_assoc, h, sub_self]

theorem eq_zero_of_transpose_mul_self (D : Mat M K)
    (h : D.transpose * D = 0) : D = 0 := by
  ext i j
  have hd : (D.transpose * D) j j = 0 := by rw [h]; rfl
  rw [Matrix.mul_apply] at hd
  have hsum : (∑ m, (fun m => D m j) m ^ 2) = 0 := by
    rw [← hd]
    exact Finset.sum_congr rfl fun m _ => by
      simp [Matrix.transpose_apply, sq]
  have := eq_zero_of_sum_sq_eq_zero (fun m => D m j) hsum i
  simpa using this

/-- Uniqueness of the least-squares residual: any two least-squares fits
against covariate matrices with the same column space leave the same
residual. -/
theorem residual_eq (XC1 : Mat M P1) (XC2 : Mat M P2)
    (C12 : Mat P1 P2) (C21 : Mat P2 P1)
    (h12 : XC2 = XC1 * C12) (h21 : XC1 = XC2 * C21)
    (A : Mat M K) (B1 : Mat P1 K) (B2 : Mat P2 K)
    (hl1 : IsLstsqAt XC1 A B1) (hl2 : IsLstsqAt XC2 A B2) :
    project XC1 A B1 = project XC2 A B2 := by
  have hA1 : XC1.transpose * project XC1 A B1 = 0 :=
    transpose_mul_project XC1 A B1 hl1
  have hA2 : XC2.transpose * project XC2 A B2 = 0 :=
    transpose_mul_project XC2 A B2 hl2
  have h2' : XC1.transpose * project XC2 A B2 = 0 := by
    rw [h21, Matrix.transpose_mul, Matrix.mul_assoc, hA2, Matrix.mul_zero]
  have hD : XC1.transpose * (project XC1 A B1 - project XC2 A B2) = 0 := by
    rw [Matrix.mul_sub, hA1, h2', sub_zero]
  have hcol : project XC1 A B1 - project XC2 A B2 = XC1 * (C12 * B2 - B1) := by
    unfold project
    rw [Matrix.mul_sub, ← Matrix.mul_assoc, ← h12]
    abel
  have hzero : (project XC1 A B1 - project XC2 A B2).transpose *
      (project XC1 A B1 - project XC2 A B2) = 0 := by
    calc (project XC1 A B1 - project XC2 A B2).transpose *
          (project XC1 A B1 - project XC2 A B2)
        = (XC1 * (C12 * B2 - B1)).transpose *
          (project XC1 A B1 - project XC2 A B2) := by rw [← hcol]
      _ = (C12 * B2 - B1).transpose *
          (XC1.transpose * (project XC1 A B1 - project XC2 A B2)) := by
          rw [Matrix.transpose_mul, Matrix.mul_assoc]
      _ = 0 := by rw [hD, Matrix.mul_zero]
  have := eq_zero_of_transpose_mul_self _ hzero
  exact sub_eq_zero.mp this

theorem mul_qInv_self (A : Mat p p) (h : A.det ≠ 0) : A * qInv A = 1 := by
  unfold qInv
  rw [Matrix.mul_smul, Matrix.mul_adjugate, smul_smul, inv_mul_cancel₀ h, one_smul]

/-- The concrete normal-equations solver returns a least-squares solution
whenever `XCᵀXC` is nonsingular. -/
theorem neSolver_isLstsq (M P K : ℕ) (XC : Mat M P) (A : Mat M K)
    (h : (XC.transpose * XC).det ≠ 0) :
    IsLstsqAt XC A (neSolver M P K XC A) := by
  unfold IsLstsqAt neSolver
  rw [← Matrix.mul_assoc, mul_qInv_self _ h, Matrix.one_mul]

/-- The normal equations characterize exactly the minimizers of the squared
Frobenius norm of the residual, i.e. the least-squares solutions that
`da.linalg.lstsq` is specified to return. -/
theorem isLstsqAt_iff_frobeniusSq_le (XC : Mat M P) (A : Mat M K) (B : Mat P K) :
    IsLstsqAt XC A B ↔ ∀ B2 : Mat P K, frobSq (A - XC * B) ≤ frobSq (A - XC * B2) := by
  constructor
  · intro h B2
    have hdecomp : A - XC * B2 = (A - XC * B) + XC * (B - B2) := by
      rw [Matrix.mul_sub]
      abel
    rw [hdecomp, frobSq_add]
    have hq : qinner (A - XC * B) (XC * (B - B2)) = 0 := by
      rw [qinner_shift,
        show XC.transpose * (A - XC * B) = 0 from transpose_mul_project XC A B h]
      unfold qinner
      simp
    rw [hq]
    have := frobSq_nonneg (XC * (B - B2))
    linarith
  · intro hmin
    have key : XC.transpose * (A - XC * B) = 0 := by
      ext p k
      set E := A - XC * B with hE
      set g : ℚ := (XC.transpose * E) p k with hg
      show (XC.transpose * E) p k = (0 : Mat P K) p k
      rw [Matrix.zero_apply, ← hg]
      set S : Mat P K := fun a b =>
        (if a = p then (1 : ℚ) else 0) * (if b = k then 1 else 0) with hS
      have hqS : ∀ U : Mat P K, qinner U S = U p k := by
        intro U
        unfold qinner
        rw [hS]
        simp [mul_ite, ite_mul, mul_one, mul_zero, Finset.sum_ite_eq]
      set c : ℚ := frobSq (XC * S) with hc
      have hc0 : 0 ≤ c := frobSq_nonneg _
      have hineq : ∀ t : ℚ, 0 ≤ t ^ 2 * c - 2 * t * g := by
        intro t
        have h2 := hmin (B + t • S)
        have hre : A - XC * (B + t • S) = E + (-t) • (XC * S) := by
          rw [Matrix.mul_add, Matrix.mul_smul, hE]
          ext i j
          simp [Matrix.sub_apply, Matrix.add_apply, Matrix.smul_apply, smul_eq_mul]
          ring
        rw [hre, frobSq_add, frobSq_smul, qinner_smul_right, qinner_shift, hqS, ← hg,
          ← hc] at h2
        nlinarith [h2]
      rcases eq_or_lt_of_le hc0 with hczero | hcpos
      · have ht := hineq g
        rw [← hczero] at ht
        have hg2 : g ^ 2 = 0 :=
          le_antisymm (by nlinarith [ht]) (sq_nonneg g)
        exact (pow_eq_zero_iff two_ne_zero).mp hg2
      · have ht := hineq (g / c)
        have heq : (g / c) ^ 2 * c - 2 * (g / c) * g = -(g ^ 2 / c) := by
          field_simp
          ring
        rw [heq] at ht
        have hgsq : g ^ 2 / c ≤ 0 := by linarith
        have hup : g ^ 2 ≤ 0 := by
          rcases div_nonpos_iff.mp hgsq with ⟨_, hc2⟩ | ⟨h1, _⟩
          · nlinarith [hcpos]
          · exact h1
        have hg2 : g ^ 2 = 0 := le_antisymm hup (sq_nonneg g)
        exact (pow_eq_zero_iff two_ne_zero).mp hg2
    rw [Matrix.mul_sub, ← Matrix.mul_assoc, sub_eq_zero] at key
    exact key.symm

/-- Per-pair locality of `Bmat`: the beta for loop covariate `n` depends
only on column `n` of `XLP` (and on `YP`). -/
theorem Bmat_col_eq (XLP : Mat M N) (XLP2 : Mat M N2) (YP : Mat M O)
    (n : Fin N) (n2 : Fin N2) (hc : ∀ m, XLP m n = XLP2 m n2) (o : Fin O) :
    Bmat XLP YP n o = Bmat XLP2 YP n2 o := by
  rw [Bmat_apply, Bmat_apply]
  simp only [hc]

theorem XLPSmat_col_eq (XLP : Mat M N) (XLP2 : Mat M N2)
    (n : Fin N) (n2 : Fin N2) (hc : ∀ m, XLP m n = XLP2 m n2) :
    XLPSmat XLP n 0 = XLPSmat XLP2 n2 0 := by
  rw [XLPSmat_apply, XLPSmat_apply]
  simp only [hc]

theorem RSSmat_col_eq (XLP : Mat M N) (XLP2 : Mat M N2) (YP : Mat M O)
    (n : Fin N) (n2 : Fin N2) (hc : ∀ m, XLP m n = XLP2 m n2) (o : Fin O) :
    RSSmat XLP YP n o = RSSmat XLP2 YP n2 o := by
  rw [RSSmat_apply, RSSmat_apply]
  simp only [hc, Bmat_col_eq XLP XLP2 YP n n2 hc]

theorem Tmat_col_eq (XLP : Mat M N) (XLP2 : Mat M N2) (YP : Mat M O) (dof : ℤ)
    (n : Fin N) (n2 : Fin N2) (hc : ∀ m, XLP m n = XLP2 m n2) (o : Fin O) :
    Tmat XLP YP dof n o = Tmat XLP2 YP dof n2 o := by
  unfold Tmat tDenomSq
  rw [Bmat_col_eq XLP XLP2 YP n n2 hc, RSSmat_col_eq XLP XLP2 YP n n2 hc,
    XLPSmat_col_eq XLP XLP2 n n2 hc]

theorem Pmat_col_eq (tsf : ℝ → ℤ → ℝ) (XLP : Mat M N) (XLP2 : Mat M N2)
    (YP : Mat M O) (dof : ℤ)
    (n : Fin N) (n2 : Fin N2) (hc : ∀ m, XLP m n = XLP2 m n2) (o : Fin O) :
    Pmat tsf XLP YP dof n o = Pmat tsf XLP2 YP dof n2 o := by
  unfold Pmat
  rw [Tmat_col_eq XLP XLP2 YP dof n n2 hc]

/-- Per-pair locality over the IEEE model. -/
theorem B_F_col_eq (XLP : Fin M → Fin N → FVal) (XLP2 : Fin M → Fin N2 → FVal)
    (YP : Fin M → Fin O → FVal) (n : Fin N) (n2 : Fin N2)
    (hc : ∀ m, XLP m n = XLP2 m n2) (o : Fin O) :
    B_F XLP YP n o = B_F XLP2 YP n2 o := by
  unfold B_F XLPS_F
  simp only [hc]

theorem T_F_col_eq (sqrtF : FVal → FVal) (XLP : Fin M → Fin N → FVal)
    (XLP2 : Fin M → Fin N2 → FVal) (YP : Fin M → Fin O → FVal) (dof : ℤ)
    (n : Fin N) (n2 : Fin N2) (hc : ∀ m, XLP m n = XLP2 m n2) (o : Fin O) :
    T_F sqrtF XLP YP dof n o = T_F sqrtF XLP2 YP dof n2 o := by
  unfold T_F RSS_F YR_F B_F XLPS_F
  simp only [hc]

theorem P_F_col_eq (sqrtF : FVal → FVal) (tsfF : FVal → ℤ → FVal)
    (XLP : Fin M → Fin N → FVal) (XLP2 : Fin M → Fin N2 → FVal)
    (YP : Fin M → Fin O → FVal) (dof : ℤ)
    (n : Fin N) (n2 : Fin N2) (hc : ∀ m, XLP m n = XLP2 m n2) (o : Fin O) :
    P_F sqrtF tsfF XLP YP dof n o = P_F sqrtF tsfF XLP2 YP dof n2 o := by
  unfold P_F T_F RSS_F YR_F B_F XLPS_F
  simp only [hc]

theorem hconcat_castAdd (A : Mat M N1) (B : Mat M N2) (i : Fin M) (j : Fin N1) :
    hconcat A B i (Fin.castAdd N2 j) = A i j := by
  unfold hconcat
  rw [Fin.addCases_left]

theorem hconcat_natAdd (A : Mat M N1) (B : Mat M N2) (i : Fin M) (j : Fin N2) :
    hconcat A B i (Fin.natAdd N1 j) = B i j := by
  unfold hconcat
  rw [Fin.addCases_right]

theorem mul_hconcat (W : Mat L M) (A : Mat M N1) (B : Mat M N2) :
    W * hconcat A B = hconcat (W * A) (W * B) := by
  ext i j
  induction j using Fin.addCases with
  | left j1 =>
      rw [hconcat_castAdd]
      rw [Matrix.mul_apply, Matrix.mul_apply]
      exact Finset.sum_congr rfl fun m _ => by rw [hconcat_castAdd]
  | right j2 =>
      rw [hconcat_natAdd]
      rw [Matrix.mul_apply, Matrix.mul_apply]
      exact Finset.sum_congr rfl fun m _ => by rw [hconcat_natAdd]

theorem sub_hconcat (A1 Z1 : Mat M N1) (A2 Z2 : Mat M N2) :
    hconcat A1 A2 - hconcat Z1 Z2 = hconcat (A1 - Z1) (A2 - Z2) := by
  ext i j
  induction j using Fin.addCases with
  | left j1 =>
      rw [Matrix.sub_apply, hconcat_castAdd, hconcat_castAdd, hconcat_castAdd,
        Matrix.sub_apply]
  | right j2 =>
      rw [Matrix.sub_apply, hconcat_natAdd, hconcat_natAdd, hconcat_natAdd,
        Matrix.sub_apply]

/-- Stacking two least-squares solutions side by side solves the stacked
problem. -/
theorem isLstsqAt_hconcat (XC : Mat M P) (A1 : Mat M N1) (A2 : Mat M N2)
    (B1 : Mat P N1) (B2 : Mat P N2)
    (h1 : IsLstsqAt XC A1 B1) (h2 : IsLstsqAt XC A2 B2) :
    IsLstsqAt XC (hconcat A1 A2) (hconcat B1 B2) := by
  unfold IsLstsqAt at *
  rw [mul_hconcat, mul_hconcat, h1, h2]

/-- The projection acts column-block-wise. -/
theorem project_hconcat (XC : Mat M P) (A1 : Mat M N1) (A2 : Mat M N2)
    (B1 : Mat P N1) (B2 : Mat P N2) :
    project XC (hconcat A1 A2) (hconcat B1 B2) =
      hconcat (project XC A1 B1) (project XC A2 B2) := by
  unfold project
  rw [mul_hconcat, sub_hconcat]

/-- Two covariate matrices whose columns are related by a permutation have
the same column space, hence the same least-squares residual. -/
theorem col_perm_residual (XC1 XC2 : Mat M P) (σ : Equiv.Perm (Fin P))
    (hσ : ∀ i j, XC2 i j = XC1 i (σ j)) (A : Mat M K)
    (B1 B2 : Mat P K)
    (h1 : IsLstsqAt XC1 A B1) (h2 : IsLstsqAt XC2 A B2) :
    project XC1 A B1 = project XC2 A B2 := by
  have h12 : XC2 = XC1 * Matrix.of (fun a b => if σ b = a then (1 : ℚ) else 0) := by
    ext i b
    rw [Matrix.mul_apply]
    simp only [Matrix.of_apply, mul_ite, mul_one, mul_zero, Finset.sum_ite_eq,
      Finset.mem_univ, if_true]
    exact hσ i b
  have h21 : XC1 = XC2 * Matrix.of (fun a b => if σ.symm b = a then (1 : ℚ) else 0) := by
    ext i b
    rw [Matrix.mul_apply]
    simp only [Matrix.of_apply, mul_ite, mul_one, mul_zero, Finset.sum_ite_eq,
      Finset.mem_univ, if_true]
    rw [hσ i (σ.symm b), Equiv.apply_symm_apply]
  exact residual_eq XC1 XC2 _ _ h12 h21 A B1 B2 h1 h2

/-- Helper: indexing a mapped list with a default equals mapping the
indexed element, when in range. -/
theorem getD_map_get (f : String → NDArr) (l : List String) (j : ℕ)
    (hj : j < l.length) :
    (l.map f).getD j default = f (l.get ⟨j, hj⟩) := by
  induction l generalizing j with
  | nil => exact absurd hj (Nat.not_lt_zero j)
  | cons a l ih =>
      cases j with
      | zero => rfl
      | succ j => exact ih j (Nat.lt_of_succ_lt_succ hj)

/-! ## Claim theorems -/

/-- C1: for every input (XLP, YP, dof) handed to the batched estimator by
the projection step, the statistics are computed exactly by the spec's
enumerated steps: `XLPS[n]` is the per-column sum of squares of `XLP`;
`Beta` is the matrix product `XLPᵀ @ YP` divided elementwise (with the
`(N,1)` column broadcast across outcomes) by `XLPS`; `RSS[n,o]` is the sum
over observations of `(YP[m,o] - XLP[m,n]·Beta[n,o])²`; `T[n,o] =
Beta[n,o] / sqrt(RSS[n,o] / dof / XLPS[n])`; and `P[n,o] = 2 ·
tsf(|T[n,o]|, dof)` where `tsf` is the Student-t survival function. -/
theorem C1_estimator_steps (M N O : ℕ) (XLP : Mat M N) (YP : Mat M O)
    (dof : ℤ) (tsf : ℝ → ℤ → ℝ) :
    (∀ n, XLPSmat XLP n 0 = ∑ m, XLP m n ^ 2)
    ∧ (∀ n o, Bmat XLP YP n o = (XLP.transpose * YP) n o / XLPSmat XLP n 0)
    ∧ (∀ n o, Bmat XLP YP n o = (∑ m, XLP m n * YP m o) / ∑ m, XLP m n ^ 2)
    ∧ (∀ n o, RSSmat XLP YP n o
        = ∑ m, (YP m o - XLP m n * Bmat XLP YP n o) ^ 2)
    ∧ (∀ n o, Tmat XLP YP dof n o
        = (Bmat XLP YP n o : ℝ)
          / Real.sqrt ((RSSmat XLP YP n o / (dof : ℚ) / XLPSmat XLP n 0 : ℚ) : ℝ))
    ∧ (∀ n o, Pmat tsf XLP YP dof n o = 2 * tsf |Tmat XLP YP dof n o| dof) :=
  ⟨fun n => XLPSmat_apply XLP n, fun _ _ => rfl,
   fun n o => Bmat_apply XLP YP n o, fun n o => RSSmat_apply XLP YP n o,
   fun _ _ => rfl, fun _ _ => rfl⟩

/-- C3: the projection step returns `A - XC @ beta_core` for a
least-squares `beta_core`, and consequently every residual column is
orthogonal to the column space of `XC` (exactly, in the rational model of
the solver's arithmetic). -/
theorem C3_projection_orthogonal (M P K : ℕ) (XC : Mat M P) (A : Mat M K)
    (Bc : Mat P K) (h : IsLstsqAt XC A Bc) :
    project XC A Bc = A - XC * Bc
    ∧ XC.transpose * project XC A Bc = 0
    ∧ ∀ (p : Fin P) (k : Fin K), (∑ m, XC m p * project XC A Bc m k) = 0 := by
  refine ⟨rfl, transpose_mul_project XC A Bc h, fun p k => ?_⟩
  have h0 := transpose_mul_project XC A Bc h
  have h1 : (XC.transpose * project XC A Bc) p k = 0 := by rw [h0]; rfl
  rw [Matrix.mul_apply] at h1
  simpa [Matrix.transpose_apply] using h1

/-- C3 witness: a concrete least-squares fit (intercept-only design,
`A = (1,3)ᵀ`, fitted mean `2`) whose residual is orthogonal to `XC`. -/
theorem C3_witness :
    IsLstsqAt (fun _ _ => 1 : Mat 2 1)
      (fun i _ => if i = 0 then 1 else 3 : Mat 2 1) (fun _ _ => 2 : Mat 1 1)
    ∧ Matrix.transpose (fun _ _ => 1 : Mat 2 1) *
        project (fun _ _ => 1 : Mat 2 1)
          (fun i _ => if i = 0 then 1 else 3 : Mat 2 1)
          (fun _ _ => 2 : Mat 1 1) = 0 :=
  have h : IsLstsqAt (fun _ _ => 1 : Mat 2 1)
      (fun i _ => if i = 0 then 1 else 3 : Mat 2 1) (fun _ _ => 2 : Mat 1 1) := by
    unfold IsLstsqAt
    ext p k
    fin_cases p
    fin_cases k
    simp [Matrix.mul_apply, Fin.sum_univ_two, Matrix.transpose_apply]
    norm_num
  ⟨h, (C3_projection_orthogonal 2 1 1 _ _ _ h).2.1⟩

/-- C8: core-covariate extraction fails immediately when asked for zero
named covariates with no intercept, before building any matrix. -/
theorem C8_no_covariates_no_intercept (ds : Dataset) :
    _get_core_covariates ds [] false =
      Except.error "At least one covariate must be provided when `add_intercept`=False" := rfl

/-- C10: with an empty covariate list, core-covariate extraction fails even
when `add_intercept = true` (the empty stack errors before the intercept
column is added), hence unconditionally in the flag, and the
genome-association entrypoint errors as well — an intercept-only
core-covariate matrix can never be obtained through it. -/
theorem C10_empty_covariates_unconditional (ds : Dataset) :
    _get_core_covariates ds [] true =
      Except.error "need at least one array to stack"
    ∧ (∀ b : Bool, ∃ e, _get_core_covariates ds [] b = Except.error e)
    ∧ ∀ (solver : Solver) (dn tn : String) (b : Bool),
        ∃ e, gwas_linear_regression solver ds [] dn tn b = Except.error e := by
  refine ⟨rfl, ?_, ?_⟩
  · intro b
    cases b
    · exact ⟨_, rfl⟩
    · exact ⟨_, rfl⟩
  · intro solver dn tn b
    cases b
    · exact ⟨_, rfl⟩
    · exact ⟨_, rfl⟩

/-- C9 counterexample: for a dataset whose covariate column `c` is the
constant 5, `_get_core_covariates` with `add_intercept = true` puts the
all-ones intercept at column 0 and the named covariate at column 1 — the
intercept column is placed before, not after, the named covariates. -/
theorem C9_counterexample :
    ∃ A, _get_core_covariates (fun _ => ⟨[1], fun _ => 5⟩) ["c"] true =
        Except.ok A
      ∧ A.entry [0, 0] = 1 ∧ A.entry [0, 1] = 5 ∧ (1 : ℚ) ≠ 5 :=
  ⟨_, rfl, rfl, rfl, by norm_num⟩

/-- C9 (amended): when `add_intercept` is true, the all-ones intercept
column is prepended to the core-covariate matrix — placed at column 0,
before the named covariate columns — before projection. -/
theorem C9_intercept_prepended (ds : Dataset) (covs : List String)
    (h : covs ≠ []) :
    ∃ A, _get_core_covariates ds covs true = Except.ok A
      ∧ (∀ i : ℕ, A.entry [i, 0] = 1)
      ∧ (∀ (i j : ℕ) (hj : j < covs.length),
          A.entry [i, j + 1] = (ds (covs.get ⟨j, hj⟩)).entry [i])
      ∧ A.shape.getD 1 0 = covs.length + 1 := by
  rcases covs with _ | ⟨c, rest⟩
  · exact absurd rfl h
  refine ⟨_, rfl, fun i => rfl, ?_, ?_⟩
  · intro i j hj
    show (coreStack ds (c :: rest)).entry [i, j + 1 - 1]
      = (ds ((c :: rest).get ⟨j, hj⟩)).entry [i]
    show (((c :: rest).map ds).getD (j + 1 - 1) default).entry [i] = _
    rw [Nat.add_sub_cancel, getD_map_get ds (c :: rest) j hj]
  · simp [addInterceptCol, coreStack, stackT]

/-- C9 witness: the amended statement at a concrete dataset. -/
theorem C9_witness :
    (["c"] : List String) ≠ []
    ∧ ∃ A, _get_core_covariates (fun _ => ⟨[1], fun _ => 5⟩) ["c"] true =
        Except.ok A
      ∧ (∀ i : ℕ, A.entry [i, 0] = 1)
      ∧ (∀ (i j : ℕ) (hj : j < (["c"] : List String).length),
          A.entry [i, j + 1] =
            (((fun _ => ⟨[1], fun _ => 5⟩) : Dataset)
              ((["c"] : List String).get ⟨j, hj⟩)).entry [i])
      ∧ A.shape.getD 1 0 = (["c"] : List String).length + 1 :=
  ⟨by decide, C9_intercept_prepended (fun _ => ⟨[1], fun _ => 5⟩) ["c"] (by decide)⟩

/-- C2: for exactly-2-dimensional inputs `XL : (M,N)`, `XC : (M,P)`,
`Y : (M,O)` with `M - P - 1 ≥ 1`, `linear_regression` succeeds and
`beta`, `t_value`, `p_value` (all indexed by the result's `nLoop` ×
`nOutcome` axes) have shape `(N, O)`. -/
theorem C2_shape_law (solver : Solver) (M N P O : ℕ)
    (eXL eXC eY : List ℕ → ℚ) (h : 1 ≤ (M : ℤ) - P - 1) :
    ∃ r, linear_regression solver ⟨[M, N], eXL⟩ ⟨[M, P], eXC⟩ ⟨[M, O], eY⟩ =
        Except.ok r ∧ r.nLoop = N ∧ r.nOutcome = O := by
  have hok : linear_regression solver ⟨[M, N], eXL⟩ ⟨[M, P], eXC⟩ ⟨[M, O], eY⟩
      = Except.ok (linRegCore solver M N P O
          ((⟨[M, N], eXL⟩ : NDArr).mat M N) ((⟨[M, P], eXC⟩ : NDArr).mat M P)
          ((⟨[M, O], eY⟩ : NDArr).mat M O) ((M : ℤ) - P - 1)) := by
    unfold linear_regression
    rw [if_pos ⟨rfl, rfl, rfl⟩]
    dsimp only [List.getD_cons_zero, List.getD_cons_succ]
    rw [if_neg (not_lt.mpr h)]
  exact ⟨_, hok, rfl, rfl⟩

/-- C2 witness: concrete shapes (3,2), (3,1), (3,1) with dof = 1. -/
theorem C2_witness :
    1 ≤ (3 : ℤ) - 1 - 1
    ∧ ∃ r, linear_regression neSolver ⟨[3, 2], fun _ => 0⟩ ⟨[3, 1], fun _ => 0⟩
        ⟨[3, 1], fun _ => 0⟩ = Except.ok r ∧ r.nLoop = 2 ∧ r.nOutcome = 1 :=
  ⟨by decide,
   C2_shape_law neSolver 3 2 1 1 (fun _ => 0) (fun _ => 0) (fun _ => 0) (by decide)⟩

/-- C4: `linear_regression` fails exactly when (a) some input is not
2-dimensional — in which case the error is the two-dimensionality message,
raised before any computation — or (b) all inputs are 2-dimensional but
`dof = M - P - 1 < 1` — in which case the message reports the observation
count and the core-covariate count; in all other cases a full result is
returned (no partial results exist in the error cases). -/
theorem C4_validation (solver : Solver) (XL XC Y : NDArr) :
    ((∃ e, linear_regression solver XL XC Y = Except.error e) ↔
      (¬(XL.ndim = 2 ∧ XC.ndim = 2 ∧ Y.ndim = 2)
        ∨ ((Y.shape.getD 0 0 : ℤ) - XC.shape.getD 1 0 - 1 < 1)))
    ∧ (¬(XL.ndim = 2 ∧ XC.ndim = 2 ∧ Y.ndim = 2) →
        linear_regression solver XL XC Y =
          Except.error "All arguments must be two dimensional")
    ∧ ((XL.ndim = 2 ∧ XC.ndim = 2 ∧ Y.ndim = 2) →
        ((Y.shape.getD 0 0 : ℤ) - XC.shape.getD 1 0 - 1 < 1) →
        linear_regression solver XL XC Y =
          Except.error (dofMsg (Y.shape.getD 0 0) (XC.shape.getD 1 0))) := by
  by_cases h2 : XL.ndim = 2 ∧ XC.ndim = 2 ∧ Y.ndim = 2
  · by_cases hdof : (Y.shape.getD 0 0 : ℤ) - XC.shape.getD 1 0 - 1 < 1
    · have herr : linear_regression solver XL XC Y =
          Except.error (dofMsg (Y.shape.getD 0 0) (XC.shape.getD 1 0)) := by
        unfold linear_regression
        rw [if_pos h2]
        dsimp only
        rw [if_pos hdof]
      refine ⟨⟨fun _ => Or.inr hdof, fun _ => ⟨_, herr⟩⟩,
        fun hn => absurd h2 hn, fun _ _ => herr⟩
    · have hok : linear_regression solver XL XC Y =
          Except.ok (linRegCore solver (Y.shape.getD 0 0) (XL.shape.getD 1 0)
            (XC.shape.getD 1 0) (Y.shape.getD 1 0)
            (XL.mat (Y.shape.getD 0 0) (XL.shape.getD 1 0))
            (XC.mat (Y.shape.getD 0 0) (XC.shape.getD 1 0))
            (Y.mat (Y.shape.getD 0 0) (Y.shape.getD 1 0))
            ((Y.shape.getD 0 0 : ℤ) - XC.shape.getD 1 0 - 1)) := by
        unfold linear_regression
        rw [if_pos h2]
        dsimp only
        rw [if_neg hdof]
      refine ⟨⟨?_, ?_⟩, fun hn => absurd h2 hn, fun _ hd => absurd hd hdof⟩
      · rintro ⟨e, he⟩
        rw [hok] at he
        exact absurd he (by simp)
      · rintro (hn | hd)
        · exact absurd h2 hn
        · exact absurd hd hdof
  · have herr : linear_regression solver XL XC Y =
        Except.error "All arguments must be two dimensional" := by
      unfold linear_regression
      rw [if_neg h2]
    exact ⟨⟨fun _ => Or.inl h2, fun _ => ⟨_, herr⟩⟩, fun _ => herr,
      fun ha _ => absurd ha h2⟩

/-- C4 witness: a 1-D loop-covariate array is rejected with the
two-dimensionality message. -/
theorem C4_witness :
    ¬((NDArr.ndim ⟨[3], fun _ => 0⟩ = 2) ∧ (NDArr.ndim ⟨[3, 1], fun _ => 0⟩ = 2)
        ∧ (NDArr.ndim ⟨[3, 1], fun _ => 0⟩ = 2))
    ∧ linear_regression neSolver ⟨[3], fun _ => 0⟩ ⟨[3, 1], fun _ => 0⟩
        ⟨[3, 1], fun _ => 0⟩ =
      Except.error "All arguments must be two dimensional" :=
  have hn : ¬((NDArr.ndim ⟨[3], fun _ => 0⟩ = 2)
      ∧ (NDArr.ndim ⟨[3, 1], fun _ => 0⟩ = 2)
      ∧ (NDArr.ndim ⟨[3, 1], fun _ => 0⟩ = 2)) := by
    intro hcon
    exact absurd hcon.1 (by decide)
  ⟨hn, (C4_validation neSolver _ _ _).2.1 hn⟩

theorem FVal.mul_fin (a b : ℚ) : (FVal.fin a).mul (.fin b) = .fin (a * b) := rfl

theorem FVal.div_zero_zero : (FVal.fin 0).div (.fin 0) = .nan := by
  simp [FVal.div]

theorem FVal.nan_div (x : FVal) : FVal.nan.div x = .nan := by
  cases x <;> rfl

theorem FVal.abs_nan : FVal.nan.abs = .nan := rfl

theorem FVal.two_mul_nan : (FVal.fin 2).mul .nan = .nan := rfl

/-- When a loop covariate's projected column has zero sum of squares, its
float `XLPS` entry is exactly zero. -/
theorem XLPS_F_zero (XLP : Mat M N) (n0 : Fin N)
    (hz : ∀ m, XLP m n0 = 0) : XLPS_F (embedF XLP) n0 = .fin 0 := by
  unfold XLPS_F embedF
  simp only [FVal.mul_fin]
  rw [fsum_fin]
  rw [Finset.sum_eq_zero fun m _ => by rw [hz m]; ring]

/-- The float beta of a zero-residual-variance loop covariate is NaN
(`0 / 0`). -/
theorem B_F_nan (XLP : Mat M N) (YP : Mat M O) (n0 : Fin N)
    (hz : ∀ m, XLP m n0 = 0) (o : Fin O) :
    B_F (embedF XLP) (embedF YP) n0 o = .nan := by
  unfold B_F
  rw [XLPS_F_zero XLP n0 hz]
  have hnum : fsum M (fun m => (embedF XLP m n0).mul (embedF YP m o)) = .fin 0 := by
    unfold embedF
    simp only [FVal.mul_fin]
    rw [fsum_fin]
    rw [Finset.sum_eq_zero fun m _ => by rw [hz m]; ring]
  rw [hnum, FVal.div_zero_zero]

/-- C5: a degenerate loop covariate (zero residual variance after
projection, `XLPS[n0] = 0`) does not raise: the pipeline still returns a
result for every valid-shape input; in the IEEE model the t-statistic and
p-value at `(n0, o)` are NaN (hence non-finite) for every outcome `o`; and
the statistics of every other loop covariate `n ≠ n0` are exactly the ones
computed from its own column — identical to a run without the degenerate
column. -/
theorem C5_degenerate_column (M N O : ℕ) (XLP : Mat M N) (YP : Mat M O)
    (dof : ℤ) (sqrtF : FVal → FVal) (tsfF : FVal → ℤ → FVal) (n0 : Fin N)
    (hdeg : (∑ m, XLP m n0 ^ 2) = 0)
    (htsf : tsfF FVal.nan dof = FVal.nan) :
    (∀ (solver : Solver) (P : ℕ) (eXL eXC eY : List ℕ → ℚ),
        1 ≤ (M : ℤ) - P - 1 →
        ∃ r, linear_regression solver ⟨[M, N], eXL⟩ ⟨[M, P], eXC⟩
            ⟨[M, O], eY⟩ = Except.ok r)
    ∧ (∀ o, T_F sqrtF (embedF XLP) (embedF YP) dof n0 o = FVal.nan)
    ∧ (∀ o, (T_F sqrtF (embedF XLP) (embedF YP) dof n0 o).isFinite = false)
    ∧ (∀ o, P_F sqrtF tsfF (embedF XLP) (embedF YP) dof n0 o = FVal.nan)
    ∧ ∀ (N2 : ℕ) (XLP2 : Mat M N2) (n : Fin N) (n2 : Fin N2), n ≠ n0 →
        (∀ m, XLP2 m n2 = XLP m n) →
        ∀ o, B_F (embedF XLP2) (embedF YP) n2 o
              = B_F (embedF XLP) (embedF YP) n o
          ∧ T_F sqrtF (embedF XLP2) (embedF YP) dof n2 o
              = T_F sqrtF (embedF XLP) (embedF YP) dof n o
          ∧ P_F sqrtF tsfF (embedF XLP2) (embedF YP) dof n2 o
              = P_F sqrtF tsfF (embedF XLP) (embedF YP) dof n o := by
  have hz : ∀ m, XLP m n0 = 0 := eq_zero_of_sum_sq_eq_zero _ hdeg
  have hT : ∀ o, T_F sqrtF (embedF XLP) (embedF YP) dof n0 o = FVal.nan := by
    intro o
    unfold T_F
    rw [B_F_nan XLP YP n0 hz o, FVal.nan_div]
  refine ⟨?_, hT, ?_, ?_, ?_⟩
  · intro solver P eXL eXC eY hdof
    have hok : linear_regression solver ⟨[M, N], eXL⟩ ⟨[M, P], eXC⟩ ⟨[M, O], eY⟩
        = Except.ok (linRegCore solver M N P O
            ((⟨[M, N], eXL⟩ : NDArr).mat M N) ((⟨[M, P], eXC⟩ : NDArr).mat M P)
            ((⟨[M, O], eY⟩ : NDArr).mat M O) ((M : ℤ) - P - 1)) := by
      unfold linear_regression
      rw [if_pos ⟨rfl, rfl, rfl⟩]
      dsimp only [List.getD_cons_zero, List.getD_cons_succ]
      rw [if_neg (not_lt.mpr hdof)]
    exact ⟨_, hok⟩
  · intro o
    rw [hT o]
    rfl
  · intro o
    unfold P_F
    rw [hT o, FVal.abs_nan, htsf, FVal.two_mul_nan]
  · intro N2 XLP2 n n2 _ hcc o
    have hc : ∀ m, embedF XLP2 m n2 = embedF XLP m n := fun m => by
      unfold embedF
      rw [hcc m]
    exact ⟨B_F_col_eq _ _ _ _ _ hc o, T_F_col_eq sqrtF _ _ _ dof _ _ hc o,
      P_F_col_eq sqrtF tsfF _ _ _ dof _ _ hc o⟩

/-- C5 witness: a concrete 2×2 projected loop-covariate matrix whose
column 0 is identically zero; its t-statistic is NaN for every outcome. -/
theorem C5_witness :
    (∑ m : Fin 2, ((fun _ n => if n.1 = 0 then 0 else 1 : Mat 2 2) m 0) ^ 2) = 0
    ∧ ∀ o, T_F (fun v => v)
        (embedF (fun _ n => if n.1 = 0 then 0 else 1 : Mat 2 2))
        (embedF (fun m _ => (m.1 : ℚ) : Mat 2 1)) 1 0 o = FVal.nan :=
  have hdeg : (∑ m : Fin 2,
      ((fun _ n => if n.1 = 0 then 0 else 1 : Mat 2 2) m 0) ^ 2) = 0 := by
    simp [Fin.sum_univ_two]
  ⟨hdeg, (C5_degenerate_column 2 2 1
      (fun _ n => if n.1 = 0 then 0 else 1) (fun m _ => (m.1 : ℚ)) 1
      (fun v => v) (fun v _ => v) 0 hdeg rfl).2.1⟩

/-- C7: for any valid XC and Y and any two loop-covariate blocks XL1, XL2,
regressing the column-wise concatenation `[XL1 | XL2]` jointly yields
statistics whose first `N1` rows are exactly those of regressing XL1 alone
and whose last `N2` rows are exactly those of regressing XL2 alone against
the same XC and Y (per-pair independence of the batched computation).
`B12`, `B1`, `B2`, `By` are the least-squares solver outputs for the
respective projections. -/
theorem C7_concat_independence (M P N1 N2 O : ℕ) (XC : Mat M P)
    (XL1 : Mat M N1) (XL2 : Mat M N2) (Y : Mat M O) (dof : ℤ)
    (tsf : ℝ → ℤ → ℝ)
    (B12 : Mat P (N1 + N2)) (B1 : Mat P N1) (B2 : Mat P N2) (By : Mat P O)
    (h12 : IsLstsqAt XC (hconcat XL1 XL2) B12)
    (h1 : IsLstsqAt XC XL1 B1) (h2 : IsLstsqAt XC XL2 B2)
    (_hy : IsLstsqAt XC Y By) :
    (∀ (n : Fin N1) (o : Fin O),
        Bmat (project XC (hconcat XL1 XL2) B12) (project XC Y By)
            (Fin.castAdd N2 n) o
          = Bmat (project XC XL1 B1) (project XC Y By) n o
        ∧ Tmat (project XC (hconcat XL1 XL2) B12) (project XC Y By) dof
            (Fin.castAdd N2 n) o
          = Tmat (project XC XL1 B1) (project XC Y By) dof n o
        ∧ Pmat tsf (project XC (hconcat XL1 XL2) B12) (project XC Y By) dof
            (Fin.castAdd N2 n) o
          = Pmat tsf (project XC XL1 B1) (project XC Y By) dof n o)
    ∧ ∀ (n : Fin N2) (o : Fin O),
        Bmat (project XC (hconcat XL1 XL2) B12) (project XC Y By)
            (Fin.natAdd N1 n) o
          = Bmat (project XC XL2 B2) (project XC Y By) n o
        ∧ Tmat (project XC (hconcat XL1 XL2) B12) (project XC Y By) dof
            (Fin.natAdd N1 n) o
          = Tmat (project XC XL2 B2) (project XC Y By) dof n o
        ∧ Pmat tsf (project XC (hconcat XL1 XL2) B12) (project XC Y By) dof
            (Fin.natAdd N1 n) o
          = Pmat tsf (project XC XL2 B2) (project XC Y By) dof n o := by
  have hXLP : project XC (hconcat XL1 XL2) B12
      = hconcat (project XC XL1 B1) (project XC XL2 B2) := by
    have hr := residual_eq XC XC (1 : Mat P P) (1 : Mat P P)
      (Matrix.mul_one XC).symm (Matrix.mul_one XC).symm
      (hconcat XL1 XL2) B12 (hconcat B1 B2) h12
      (isLstsqAt_hconcat XC XL1 XL2 B1 B2 h1 h2)
    rw [hr, project_hconcat]
  constructor
  · intro n o
    have hc : ∀ m, project XC (hconcat XL1 XL2) B12 m (Fin.castAdd N2 n)
        = project XC XL1 B1 m n := by
      intro m
      rw [hXLP, hconcat_castAdd]
    exact ⟨Bmat_col_eq _ _ _ _ _ hc o, Tmat_col_eq _ _ _ dof _ _ hc o,
      Pmat_col_eq tsf _ _ _ dof _ _ hc o⟩
  · intro n o
    have hc : ∀ m, project XC (hconcat XL1 XL2) B12 m (Fin.natAdd N1 n)
        = project XC XL2 B2 m n := by
      intro m
      rw [hXLP, hconcat_natAdd]
    exact ⟨Bmat_col_eq _ _ _ _ _ hc o, Tmat_col_eq _ _ _ dof _ _ hc o,
      Pmat_col_eq tsf _ _ _ dof _ _ hc o⟩

/-- C7 witness: an intercept-only XC with two single-column loop-covariate
blocks of mean 2; the joint regression's beta agrees blockwise with the
separate ones. -/
theorem C7_witness :
    IsLstsqAt (fun _ _ => 1 : Mat 3 1)
      (hconcat (fun i _ => (i.1 : ℚ) + 1 : Mat 3 1)
        (fun i _ => 2 * (i.1 : ℚ) : Mat 3 1)) (fun _ _ => 2 : Mat 1 (1 + 1))
    ∧ ((∀ (n : Fin 1) (o : Fin 1),
        Bmat (project (fun _ _ => 1 : Mat 3 1)
            (hconcat (fun i _ => (i.1 : ℚ) + 1) (fun i _ => 2 * (i.1 : ℚ)))
            (fun _ _ => 2))
          (project (fun _ _ => 1 : Mat 3 1) (fun i _ => (i.1 : ℚ) : Mat 3 1)
            (fun _ _ => 1)) (Fin.castAdd 1 n) o
        = Bmat (project (fun _ _ => 1 : Mat 3 1)
            (fun i _ => (i.1 : ℚ) + 1 : Mat 3 1) (fun _ _ => 2))
          (project (fun _ _ => 1 : Mat 3 1) (fun i _ => (i.1 : ℚ) : Mat 3 1)
            (fun _ _ => 1)) n o
        ∧ Tmat (project (fun _ _ => 1 : Mat 3 1)
            (hconcat (fun i _ => (i.1 : ℚ) + 1) (fun i _ => 2 * (i.1 : ℚ)))
            (fun _ _ => 2))
          (project (fun _ _ => 1 : Mat 3 1) (fun i _ => (i.1 : ℚ) : Mat 3 1)
            (fun _ _ => 1)) 1 (Fin.castAdd 1 n) o
          = Tmat (project (fun _ _ => 1 : Mat 3 1)
              (fun i _ => (i.1 : ℚ) + 1 : Mat 3 1) (fun _ _ => 2))
            (project (fun _ _ => 1 : Mat 3 1) (fun i _ => (i.1 : ℚ) : Mat 3 1)
              (fun _ _ => 1)) 1 n o
        ∧ Pmat (fun t _ => t) (project (fun _ _ => 1 : Mat 3 1)
            (hconcat (fun i _ => (i.1 : ℚ) + 1) (fun i _ => 2 * (i.1 : ℚ)))
            (fun _ _ => 2))
          (project (fun _ _ => 1 : Mat 3 1) (fun i _ => (i.1 : ℚ) : Mat 3 1)
            (fun _ _ => 1)) 1 (Fin.castAdd 1 n) o
          = Pmat (fun t _ => t) (project (fun _ _ => 1 : Mat 3 1)
              (fun i _ => (i.1 : ℚ) + 1 : Mat 3 1) (fun _ _ => 2))
            (project (fun _ _ => 1 : Mat 3 1) (fun i _ => (i.1 : ℚ) : Mat 3 1)
              (fun _ _ => 1)) 1 n o)) := by
  have h12 : IsLstsqAt (fun _ _ => 1 : Mat 3 1)
      (hconcat (fun i _ => (i.1 : ℚ) + 1 : Mat 3 1)
        (fun i _ => 2 * (i.1 : ℚ) : Mat 3 1)) (fun _ _ => 2 : Mat 1 (1 + 1)) := by
    unfold IsLstsqAt
    ext p k
    fin_cases p
    fin_cases k <;>
      · simp [Matrix.mul_apply, Fin.sum_univ_three, Matrix.transpose_apply,
          hconcat, Fin.addCases]
        norm_num
  have h1 : IsLstsqAt (fun _ _ => 1 : Mat 3 1)
      (fun i _ => (i.1 : ℚ) + 1 : Mat 3 1) (fun _ _ => 2 : Mat 1 1) := by
    unfold IsLstsqAt
    ext p k
    fin_cases p
    fin_cases k
    simp [Matrix.mul_apply, Fin.sum_univ_three, Matrix.transpose_apply]
    norm_num
  have h2 : IsLstsqAt (fun _ _ => 1 : Mat 3 1)
      (fun i _ => 2 * (i.1 : ℚ) : Mat 3 1) (fun _ _ => 2 : Mat 1 1) := by
    unfold IsLstsqAt
    ext p k
    fin_cases p
    fin_cases k
    simp [Matrix.mul_apply, Fin.sum_univ_three, Matrix.transpose_apply]
    norm_num
  have hy : IsLstsqAt (fun _ _ => 1 : Mat 3 1)
      (fun i _ => (i.1 : ℚ) : Mat 3 1) (fun _ _ => 1 : Mat 1 1) := by
    unfold IsLstsqAt
    ext p k
    fin_cases p
    fin_cases k
    simp [Matrix.mul_apply, Fin.sum_univ_three, Matrix.transpose_apply]
    norm_num
  exact ⟨h12, (C7_concat_independence 3 1 1 1 1 _ _ _ _ 1 (fun t _ => t)
    _ _ _ _ h12 h1 h2 hy).1⟩

theorem NDArr.T_shape (A : NDArr) : (NDArr.T A).shape = A.shape.reverse := rfl

theorem addInterceptCol_shape (X : NDArr) :
    (addInterceptCol X).shape = [X.shape.getD 0 0, X.shape.getD 1 0 + 1] := rfl

theorem coreStack_shape (ds : Dataset) (covs : List String) :
    (coreStack ds covs).shape =
      [((covs.map ds).headD default).shape.getD 0 0, covs.length] := by
  unfold coreStack stackT
  rw [List.length_map]

/-- Full evaluation of `linear_regression` on shape-valid inputs. -/
theorem linear_regression_eval (solver : Solver) (XL XC Y : NDArr)
    (M N P O : ℕ) (hXL : XL.shape = [M, N]) (hXCs : XC.shape.length = 2)
    (hXCw : XC.shape.getD 1 0 = P) (hY : Y.shape = [M, O])
    (hdof : ¬ ((M : ℤ) - P - 1 < 1)) :
    linear_regression solver XL XC Y =
      Except.ok (linRegCore solver M N P O (XL.mat M N) (XC.mat M P)
        (Y.mat M O) ((M : ℤ) - P - 1)) := by
  obtain ⟨shXL, enXL⟩ := XL
  obtain ⟨shXC, enXC⟩ := XC
  obtain ⟨shY, enY⟩ := Y
  dsimp only at hXL hXCs hXCw hY
  subst hXL
  subst hY
  rcases shXC with _ | ⟨a, _ | ⟨b, _ | ⟨c, t⟩⟩⟩
  · exact absurd hXCs (by simp)
  · exact absurd hXCs (by simp)
  · dsimp only [List.getD_cons_zero, List.getD_cons_succ] at hXCw
    subst hXCw
    unfold linear_regression
    rw [if_pos ⟨rfl, rfl, rfl⟩]
    dsimp only [List.getD_cons_zero, List.getD_cons_succ]
    rw [if_neg hdof]
  · exact absurd hXCs (by simp)

/-- Invariance of `linRegCore` under replacing the core-covariate matrix by
a column permutation of itself, provided the solver returns least-squares
solutions at the four calls involved. -/
theorem linRegCore_perm_XC (solver : Solver) (Mo N P O : ℕ)
    (XLm : Mat Mo N) (Ym : Mat Mo O) (XC1 XC2 : Mat Mo P)
    (σ : Equiv.Perm (Fin P)) (dof : ℤ)
    (hσ : ∀ i j, XC2 i j = XC1 i (σ j))
    (hs1 : IsLstsqAt XC1 XLm (solver Mo P N XC1 XLm))
    (hs2 : IsLstsqAt XC2 XLm (solver Mo P N XC2 XLm))
    (hs3 : IsLstsqAt XC1 Ym (solver Mo P O XC1 Ym))
    (hs4 : IsLstsqAt XC2 Ym (solver Mo P O XC2 Ym)) :
    linRegCore solver Mo N P O XLm XC1 Ym dof
      = linRegCore solver Mo N P O XLm XC2 Ym dof := by
  unfold linRegCore
  dsimp only
  rw [col_perm_residual XC1 XC2 σ hσ XLm _ _ hs1 hs2,
    col_perm_residual XC1 XC2 σ hσ Ym _ _ hs3 hs4]

/-- The `add_intercept = false` matrix over `covs ++ [ones]` is the
column-rotation of the `add_intercept = true` matrix over `covs`: the
explicit ones column sits last instead of first. -/
theorem gwasXC_perm (ds ds2 : Dataset) (covs : List String) (oname : String)
    (M : ℕ) (hagree : ∀ c ∈ covs, ds2 c = ds c)
    (hones : ds2 oname = onesArr M)
    (i : Fin M) (j : Fin (covs.length + 1)) :
    gwasXCN ds2 covs oname M i j
      = gwasXCI ds covs M i (finRotate (covs.length + 1) j) := by
  unfold gwasXCN gwasXCI NDArr.mat
  rw [finRotate_succ_apply]
  show (coreStack ds2 (covs ++ [oname])).entry [i.1, j.1]
    = (addInterceptCol (coreStack ds covs)).entry [i.1, ((j + 1 : Fin (covs.length + 1))).1]
  rcases eq_or_lt_of_le (Nat.le_of_lt_succ j.isLt) with hj | hj
  · -- j is the last index: left side reads the appended ones column,
    -- right side reads the prepended intercept column
    have hlast : j = Fin.last covs.length := Fin.ext hj
    rw [Fin.val_add_one, if_pos hlast]
    show (((covs ++ [oname]).map ds2).getD j.1 default).entry [i.1]
      = (addInterceptCol (coreStack ds covs)).entry [i.1, 0]
    rw [hj, List.map_append,
      List.getD_append_right _ _ _ _ (by rw [List.length_map])]
    simp only [List.length_map, Nat.sub_self]
    show (ds2 oname).entry [i.1] = (addInterceptCol (coreStack ds covs)).entry [i.1, 0]
    rw [hones]
    rfl
  · -- j indexes a named covariate on both sides
    have hnl : j ≠ Fin.last covs.length :=
      Fin.ne_of_val_ne (Nat.ne_of_lt hj)
    rw [Fin.val_add_one, if_neg hnl]
    show (((covs ++ [oname]).map ds2).getD j.1 default).entry [i.1]
      = (addInterceptCol (coreStack ds covs)).entry [i.1, j.1 + 1]
    have hr : (addInterceptCol (coreStack ds covs)).entry [i.1, j.1 + 1]
        = ((covs.map ds).getD j.1 default).entry [i.1] := by
      show (if j.1 + 1 = 0 then (1 : ℚ)
        else (coreStack ds covs).entry [i.1, j.1 + 1 - 1]) = _
      rw [if_neg (Nat.succ_ne_zero j.1), Nat.add_sub_cancel]
      rfl
    rw [hr, List.map_append,
      List.getD_append _ _ _ _ (by rw [List.length_map]; exact hj),
      getD_map_get ds2 covs j.1 hj, getD_map_get ds covs j.1 hj,
      hagree _ (List.get_mem covs _ hj)]

/-- C6: for every dataset with at least one named covariate, the
genome-association entrypoint with `add_intercept = true` produces results
(beta, t_value, p_value) identical to running it with
`add_intercept = false` on the same dataset whose covariate list
additionally names an explicit all-ones column. -/
theorem C6_intercept_equivalence (solver : Solver) (ds ds2 : Dataset)
    (c0 : String) (rest : List String) (oname dn tn : String) (V M O : ℕ)
    (hdn : (ds dn).shape = [V, M]) (htn : (ds tn).shape = [M, O])
    (hagree : ∀ c ∈ c0 :: rest, ds2 c = ds c)
    (hones : ds2 oname = onesArr M)
    (hdn2 : ds2 dn = ds dn) (htn2 : ds2 tn = ds tn)
    (hdof : ¬ ((M : ℤ) - ((c0 :: rest).length + 1) - 1 < 1))
    (hs1 : IsLstsqAt (gwasXCI ds (c0 :: rest) M) (gwasXL ds dn M V)
      (solver M ((c0 :: rest).length + 1) V (gwasXCI ds (c0 :: rest) M)
        (gwasXL ds dn M V)))
    (hs2 : IsLstsqAt (gwasXCN ds2 (c0 :: rest) oname M) (gwasXL ds dn M V)
      (solver M ((c0 :: rest).length + 1) V (gwasXCN ds2 (c0 :: rest) oname M)
        (gwasXL ds dn M V)))
    (hs3 : IsLstsqAt (gwasXCI ds (c0 :: rest) M) (gwasY ds tn M O)
      (solver M ((c0 :: rest).length + 1) O (gwasXCI ds (c0 :: rest) M)
        (gwasY ds tn M O)))
    (hs4 : IsLstsqAt (gwasXCN ds2 (c0 :: rest) oname M) (gwasY ds tn M O)
      (solver M ((c0 :: rest).length + 1) O (gwasXCN ds2 (c0 :: rest) oname M)
        (gwasY ds tn M O))) :
    gwas_linear_regression solver ds (c0 :: rest) dn tn true
      = gwas_linear_regression solver ds2 ((c0 :: rest) ++ [oname]) dn tn false := by
  have hstep1 : gwas_linear_regression solver ds (c0 :: rest) dn tn true
      = linear_regression solver (NDArr.T (ds dn))
          (addInterceptCol (coreStack ds (c0 :: rest))) (ds tn) := rfl
  have hstep2 : gwas_linear_regression solver ds2 ((c0 :: rest) ++ [oname]) dn tn false
      = linear_regression solver (NDArr.T (ds2 dn))
          (coreStack ds2 ((c0 :: rest) ++ [oname])) (ds2 tn) := rfl
  rw [hstep1, hstep2, hdn2, htn2]
  have hshXL : (NDArr.T (ds dn)).shape = [M, V] := by
    rw [NDArr.T_shape, hdn]
    rfl
  have hsZ1len : (addInterceptCol (coreStack ds (c0 :: rest))).shape.length = 2 := rfl
  have hsZ1w : (addInterceptCol (coreStack ds (c0 :: rest))).shape.getD 1 0
      = (c0 :: rest).length + 1 := by
    rw [addInterceptCol_shape]
    dsimp only [List.getD_cons_zero, List.getD_cons_succ]
    rw [coreStack_shape]
    dsimp only [List.getD_cons_zero, List.getD_cons_succ]
  have hsZ2len : (coreStack ds2 ((c0 :: rest) ++ [oname])).shape.length = 2 := by
    rw [coreStack_shape]
    rfl
  have hsZ2w : (coreStack ds2 ((c0 :: rest) ++ [oname])).shape.getD 1 0
      = (c0 :: rest).length + 1 := by
    rw [coreStack_shape]
    dsimp only [List.getD_cons_zero, List.getD_cons_succ]
    rw [List.length_append]
    rfl
  rw [linear_regression_eval solver _ _ _ M V ((c0 :: rest).length + 1) O
      hshXL hsZ1len hsZ1w htn hdof,
    linear_regression_eval solver _ _ _ M V ((c0 :: rest).length + 1) O
      hshXL hsZ2len hsZ2w htn hdof]
  refine congrArg Except.ok ?_
  show linRegCore solver M V ((c0 :: rest).length + 1) O
      (gwasXL ds dn M V) (gwasXCI ds (c0 :: rest) M) (gwasY ds tn M O)
      ((M : ℤ) - ((((c0 :: rest).length + 1 : ℕ)) : ℤ) - 1)
    = linRegCore solver M V ((c0 :: rest).length + 1) O
      (gwasXL ds dn M V) (gwasXCN ds2 (c0 :: rest) oname M) (gwasY ds tn M O)
      ((M : ℤ) - ((((c0 :: rest).length + 1 : ℕ)) : ℤ) - 1)
  exact linRegCore_perm_XC solver M V ((c0 :: rest).length + 1) O
    (gwasXL ds dn M V) (gwasY ds tn M O)
    (gwasXCI ds (c0 :: rest) M) (gwasXCN ds2 (c0 :: rest) oname M)
    (finRotate ((c0 :: rest).length + 1))
    ((M : ℤ) - ((((c0 :: rest).length + 1 : ℕ)) : ℤ) - 1)
    (gwasXC_perm ds ds2 (c0 :: rest) oname M hagree hones)
    hs1 hs2 hs3 hs4

/-- C6 witness: on the all-ones fixture, running the entrypoint with an
injected intercept equals running it with the explicit ones column "o1"
appended to the covariate list. -/
theorem C6_witness :
    (∀ c ∈ ["c"], ds2W c = dsW c)
    ∧ gwas_linear_regression solverW dsW ["c"] "d" "t" true
      = gwas_linear_regression solverW ds2W (["c"] ++ ["o1"]) "d" "t" false := by
  have hagree : ∀ c ∈ ["c"], ds2W c = dsW c := by
    intro c hc
    obtain rfl := List.mem_singleton.mp hc
    rfl
  have hs1 : IsLstsqAt (gwasXCI dsW ["c"] 4) (gwasXL dsW "d" 4 1)
      (solverW 4 ((["c"] : List String).length + 1) 1 (gwasXCI dsW ["c"] 4)
        (gwasXL dsW "d" 4 1)) := by
    unfold IsLstsqAt gwasXCI gwasXL solverW coreStack stackT addInterceptCol
      NDArr.mat NDArr.T dsW
    ext p k
    fin_cases p <;> fin_cases k <;>
      · simp [Matrix.mul_apply, Matrix.transpose_apply, Fin.sum_univ_two,
          Fin.sum_univ_four]
        norm_num
  have hs2 : IsLstsqAt (gwasXCN ds2W ["c"] "o1" 4) (gwasXL dsW "d" 4 1)
      (solverW 4 ((["c"] : List String).length + 1) 1 (gwasXCN ds2W ["c"] "o1" 4)
        (gwasXL dsW "d" 4 1)) := by
    unfold IsLstsqAt gwasXCN gwasXL solverW coreStack stackT ds2W dsW
      NDArr.mat NDArr.T onesArr
    ext p k
    fin_cases p <;> fin_cases k <;>
      · simp [Matrix.mul_apply, Matrix.transpose_apply, Fin.sum_univ_two,
          Fin.sum_univ_four]
        norm_num
  have hs3 : IsLstsqAt (gwasXCI dsW ["c"] 4) (gwasY dsW "t" 4 1)
      (solverW 4 ((["c"] : List String).length + 1) 1 (gwasXCI dsW ["c"] 4)
        (gwasY dsW "t" 4 1)) := by
    unfold IsLstsqAt gwasXCI gwasY solverW coreStack stackT addInterceptCol
      NDArr.mat dsW
    ext p k
    fin_cases p <;> fin_cases k <;>
      · simp [Matrix.mul_apply, Matrix.transpose_apply, Fin.sum_univ_two,
          Fin.sum_univ_four]
        norm_num
  have hs4 : IsLstsqAt (gwasXCN ds2W ["c"] "o1" 4) (gwasY dsW "t" 4 1)
      (solverW 4 ((["c"] : List String).length + 1) 1 (gwasXCN ds2W ["c"] "o1" 4)
        (gwasY dsW "t" 4 1)) := by
    unfold IsLstsqAt gwasXCN gwasY solverW coreStack stackT ds2W dsW
      NDArr.mat onesArr
    ext p k
    fin_cases p <;> fin_cases k <;>
      · simp [Matrix.mul_apply, Matrix.transpose_apply, Fin.sum_univ_two,
          Fin.sum_univ_four]
        norm_num
  exact ⟨hagree, C6_intercept_equivalence solverW dsW ds2W "c" [] "o1" "d" "t"
    1 4 1 rfl rfl hagree rfl rfl rfl (by decide) hs1 hs2 hs3 hs4⟩
